import Mathlib

/-!
Shallow embedding of the core of `cc-config-viewer/src-tauri`
(`src/commands/project_commands.rs` and `src/types/app.rs`):
the capability diff engine and the depth-bounded project scanner.

Conventions of the embedding:
* `serde_json::Value` is modeled by the inductive `Json`.  Numbers are
  modeled as `Int` (floating-point payloads are out of scope; no claim
  inspects numeric values) and objects as ordered field lists.
* Rust `u32`/`u64`/`usize` counters are modeled as `Nat`; none of the
  claims concern integer overflow.
* Filesystem paths are modeled as lists of path segments of the absolute
  path (e.g. `/home/u/p` is `["home", "u", "p"]`).
* Functions whose Rust signature is `Result<T, AppError>` but which have
  no reachable error path (`calculate_diff`, `categorize_differences`,
  `calculate_summary_stats`, `check_if_project`) are modeled as returning
  the payload directly; functions with a real error path return
  `Except AppError`.
-/

/-- Model of `serde_json::Value`.  Objects are ordered association lists
(the serde map is a `BTreeMap`; field order never matters for the claims,
which only use structural equality at distinct keys). -/
inductive Json where
  | null
  | bool (b : Bool)
  | num (n : Int)
  | str (s : String)
  | arr (elems : List Json)
  | obj (fields : List (String × Json))

mutual

/-- Structural equality of JSON values (serde's `PartialEq` on `Value`). -/
def Json.beq : Json → Json → Bool
  | .null, .null => true
  | .bool a, .bool b => a == b
  | .num a, .num b => a == b
  | .str a, .str b => a == b
  | .arr xs, .arr ys => Json.beqList xs ys
  | .obj xs, .obj ys => Json.beqObj xs ys
  | _, _ => false

/-- Elementwise equality of JSON arrays. -/
def Json.beqList : List Json → List Json → Bool
  | [], [] => true
  | x :: xs, y :: ys => Json.beq x y && Json.beqList xs ys
  | _, _ => false

/-- Elementwise equality of JSON object field lists. -/
def Json.beqObj : List (String × Json) → List (String × Json) → Bool
  | [], [] => true
  | (k1, v1) :: xs, (k2, v2) :: ys => k1 == k2 && Json.beq v1 v2 && Json.beqObj xs ys
  | _, _ => false

end

/-- `Json.beq` decides propositional equality. -/
theorem Json.beq_iff_eq (a b : Json) : Json.beq a b = true ↔ a = b := by
  refine Json.beq.induct
    (fun a b => (Json.beq a b = true ↔ a = b))
    (fun xs ys => (Json.beqObj xs ys = true ↔ xs = ys))
    (fun xs ys => (Json.beqList xs ys = true ↔ xs = ys))
    ?_ ?_ ?_ ?_ ?_ ?_ ?_ ?_ ?_ ?_ ?_ ?_ ?_ a b
  · simp [Json.beq]
  · intro a b; simp [Json.beq]
  · intro a b; simp [Json.beq]
  · intro a b; simp [Json.beq]
  · intro xs ys ih; simp [Json.beq, ih]
  · intro xs ys ih; simp [Json.beq, ih]
  · intro t x h1 h2 h3 h4 h5 h6
    cases t <;> cases x <;>
      first
      | exact (h1 rfl rfl).elim
      | exact (h2 _ _ rfl rfl).elim
      | exact (h3 _ _ rfl rfl).elim
      | exact (h4 _ _ rfl rfl).elim
      | exact (h5 _ _ rfl rfl).elim
      | exact (h6 _ _ rfl rfl).elim
      | simp [Json.beq]
  · simp [Json.beqList]
  · intro x xs y ys ih1 ih2
    simp [Json.beqList, ih1, ih2]
  · intro t x h1 h2
    cases t <;> cases x <;>
      first
      | exact (h1 rfl rfl).elim
      | exact (h2 _ _ _ _ rfl rfl).elim
      | simp [Json.beqList]
  · simp [Json.beqObj]
  · intro k1 v1 xs k2 v2 ys ih1 ih2
    simp [Json.beqObj, ih1, ih2, and_assoc]
  · intro t x h1 h2
    cases t <;> cases x <;>
      first
      | exact (h1 rfl rfl).elim
      | (rename_i p tp q tq
         exact (h2 p.1 p.2 tp q.1 q.2 tq rfl rfl).elim)
      | simp [Json.beqObj]

instance : DecidableEq Json :=
  fun a b => decidable_of_iff (Json.beq a b = true) (Json.beq_iff_eq a b)

/-- Model of `AppError` from `src/types/app.rs`. -/
inductive AppError where
  | Filesystem (msg : String)
  | Permission (msg : String)
  | Parse (msg : String)
  | Network (msg : String)
deriving DecidableEq

/-- The `thiserror`-generated `Display` of `AppError`
(`#[error("Filesystem error: {0}")]` and friends). -/
def AppError.display : AppError → String
  | .Filesystem m => "Filesystem error: " ++ m
  | .Permission m => "Permission error: " ++ m
  | .Parse m => "Parse error: " ++ m
  | .Network m => "Network error: " ++ m

/-- Model of `Capability` from `src/types/app.rs`. -/
structure Capability where
  id : String
  key : String
  value : Json
  source : String
deriving DecidableEq

/-- Model of `DiffStatus` from `src/types/app.rs`. -/
inductive DiffStatus where
  | Match
  | Different
  | Conflict
  | OnlyLeft
  | OnlyRight
deriving DecidableEq

/-- Model of `DiffSeverity` from `src/types/app.rs`. -/
inductive DiffSeverity where
  | Low
  | Medium
  | High
deriving DecidableEq

/-- Model of `DiffResult` from `src/types/app.rs`. -/
structure DiffResult where
  capability_id : String
  left_value : Option Capability
  right_value : Option Capability
  status : DiffStatus
  severity : DiffSeverity
  highlight_class : Option String
deriving DecidableEq

/-- Model of `SummaryStats` from `src/types/app.rs`. -/
structure SummaryStats where
  total_differences : Nat
  only_in_a : Nat
  only_in_b : Nat
  different_values : Nat
deriving DecidableEq

/-- Lookup in the `HashMap<String, &Capability>` that `calculate_diff`
builds with `.iter().map(|cap| (cap.id.clone(), cap)).collect()`.
Collecting inserts in iteration order and a later insert with the same key
overwrites an earlier one, so the lookup yields the LAST capability in the
list bearing the requested id.  Modeled as the corresponding left fold. -/
def hashMapGet (caps : List Capability) (id : String) : Option Capability :=
  caps.foldl (fun acc c => if c.id = id then some c else acc) none

/-- Model of `calculate_diff` (`project_commands.rs:475`).  Pass 1 walks
`left_capabilities` in order, classifying each element against the right-side
lookup map; pass 2 appends an `OnlyRight` result for every element of
`right_capabilities` whose id is absent from the left-side lookup map. -/
def calculate_diff (left_capabilities right_capabilities : List Capability) :
    List DiffResult :=
  let leftDiffs := left_capabilities.map (fun left_cap =>
    match hashMapGet right_capabilities left_cap.id with
    | some right_cap =>
      if left_cap.value = right_cap.value then
        { capability_id := left_cap.id
          left_value := some left_cap
          right_value := some right_cap
          status := DiffStatus.Match
          severity := DiffSeverity.Low
          highlight_class := some "" }
      else
        { capability_id := left_cap.id
          left_value := some left_cap
          right_value := some right_cap
          status := DiffStatus.Different
          severity := DiffSeverity.Medium
          highlight_class := some "bg-yellow-100 text-yellow-800" }
    | none =>
        { capability_id := left_cap.id
          left_value := some left_cap
          right_value := none
          status := DiffStatus.OnlyLeft
          severity := DiffSeverity.Medium
          highlight_class := some "bg-blue-100 text-blue-800" })
  let rightDiffs := (right_capabilities.filter (fun right_cap =>
      !(hashMapGet left_capabilities right_cap.id).isSome)).map (fun right_cap =>
    { capability_id := right_cap.id
      left_value := none
      right_value := some right_cap
      status := DiffStatus.OnlyRight
      severity := DiffSeverity.Medium
      highlight_class := some "bg-green-100 text-green-800" })
  leftDiffs ++ rightDiffs

/-- The status-to-highlight mapping written inline in
`categorize_differences` (`project_commands.rs:558`). -/
def statusHighlightClass : DiffStatus → String
  | DiffStatus.Match => ""
  | DiffStatus.OnlyLeft => "bg-blue-100 text-blue-800"
  | DiffStatus.OnlyRight => "bg-green-100 text-green-800"
  | DiffStatus.Different => "bg-yellow-100 text-yellow-800"
  | DiffStatus.Conflict => "bg-yellow-100 text-yellow-800"

/-- The per-element closure mapped by `categorize_differences`: fill in
`highlight_class` from `status` when it is `None`, otherwise keep the
result untouched. -/
def categorizeOne (diff : DiffResult) : DiffResult :=
  if diff.highlight_class = none then
    { diff with highlight_class := some (statusHighlightClass diff.status) }
  else
    diff

/-- Model of `categorize_differences` (`project_commands.rs:550`). -/
def categorize_differences (diff_results : List DiffResult) : List DiffResult :=
  diff_results.map categorizeOne

/-- Model of `calculate_summary_stats` (`project_commands.rs:576`): a left
fold over the results accumulating the `only_in_a` / `only_in_b` /
`different_values` counters exactly as the Rust `for` loop does. -/
def calculate_summary_stats (diff_results : List DiffResult) : SummaryStats :=
  let counts := diff_results.foldl (fun (acc : Nat × Nat × Nat) diff =>
    match diff.status with
    | DiffStatus.OnlyLeft => (acc.1 + 1, acc.2.1, acc.2.2)
    | DiffStatus.OnlyRight => (acc.1, acc.2.1 + 1, acc.2.2)
    | DiffStatus.Different => (acc.1, acc.2.1, acc.2.2 + 1)
    | DiffStatus.Conflict => (acc.1, acc.2.1, acc.2.2 + 1)
    | DiffStatus.Match => acc) (0, 0, 0)
  { total_differences := counts.1 + counts.2.1 + counts.2.2
    only_in_a := counts.1
    only_in_b := counts.2.1
    different_values := counts.2.2 }

/-- Model of `ScanConfig` (`project_commands.rs:9`). -/
structure ScanConfig where
  max_depth : Nat
  include_hidden : Bool
deriving DecidableEq

/-- Model of `ConfigSources` (`project_commands.rs:29`). -/
structure ConfigSources where
  user : Bool
  project : Bool
  local_ : Bool
deriving DecidableEq

/-- Model of `DiscoveredProject` (`project_commands.rs:16`).  `path` is the
absolute path as a segment list and `mcp_servers` / `sub_agents` hold the
formatted summary strings exactly as the Rust code builds them. -/
structure DiscoveredProject where
  id : String
  name : String
  path : List String
  config_file_count : Nat
  last_modified : Nat
  config_sources : ConfigSources
  mcp_servers : Option (List String)
  sub_agents : Option (List String)
deriving DecidableEq

/-- Outcome of `std::fs::read_dir` on a directory, as dispatched through
`tokio::task::spawn_blocking` in `scan_directory` (`project_commands.rs:103`):
the read succeeds, fails with an I/O `AppError` (the `Ok(Err(..))` case), or
the blocking task itself fails to join (the outer `Err(_)` case). -/
inductive ReadOutcome where
  | ok
  | ioError (e : AppError)
  | joinError
deriving DecidableEq

/-- A node of the modeled filesystem tree.  `content` of a file is the
parsed JSON (`none` when reading or parsing the file would fail);
`readOutcome` is what reading the directory's entries yields; `entryOk`
records whether the PARENT directory's entry iterator yields this entry
successfully (`false` models the per-entry `Err` skipped at
`project_commands.rs:111`); `mtime` is the modification timestamp
(`none` when metadata is unavailable). -/
inductive FsNode where
  | file (name : String) (content : Option Json) (entryOk : Bool)
  | dir (name : String) (children : List FsNode) (readOutcome : ReadOutcome)
      (entryOk : Bool) (mtime : Option Nat)

def FsNode.name : FsNode → String
  | .file n _ _ => n
  | .dir n _ _ _ _ => n

def FsNode.entryOk : FsNode → Bool
  | .file _ _ e => e
  | .dir _ _ _ e _ => e

def FsNode.isDir : FsNode → Bool
  | .file _ _ _ => false
  | .dir _ _ _ _ _ => true

def FsNode.isFile : FsNode → Bool
  | .file _ _ _ => true
  | .dir _ _ _ _ _ => false

def FsNode.childrenD : FsNode → List FsNode
  | .file _ _ _ => []
  | .dir _ cs _ _ _ => cs

def FsNode.contentD : FsNode → Option Json
  | .file _ c _ => c
  | .dir _ _ _ _ _ => none

def FsNode.mtimeD : FsNode → Option Nat
  | .file _ _ _ => none
  | .dir _ _ _ _ m => m

mutual

/-- Number of nodes of a tree; used to bound the scan loop's iteration
count. -/
def FsNode.size : FsNode → Nat
  | .file _ _ _ => 1
  | .dir _ children _ _ _ => 1 + FsNode.sizeList children

def FsNode.sizeList : List FsNode → Nat
  | [] => 0
  | c :: cs => FsNode.size c + FsNode.sizeList cs

end

mutual

/-- No directory anywhere in the tree fails `read_dir` with an I/O error
(a `joinError` outcome is still allowed). -/
def FsNode.readsOk : FsNode → Bool
  | .file _ _ _ => true
  | .dir _ children ro _ _ =>
    (match ro with
     | ReadOutcome.ioError _ => false
     | _ => true) && FsNode.readsOkList children

def FsNode.readsOkList : List FsNode → Bool
  | [] => true
  | c :: cs => FsNode.readsOk c && FsNode.readsOkList cs

end

/-- First child bearing a given name (directory entries have unique names
in a real filesystem, so first-match lookup is exact). -/
def lookupChild (children : List FsNode) (n : String) : Option FsNode :=
  children.find? (fun c => c.name = n)

/-- Model of Rust's `Path::file_name().starts_with('.')` test used for
hidden entries (`project_commands.rs:118`); phrased over the character
list so that it evaluates by `decide`. -/
def hiddenName (name : String) : Bool :=
  name.toList.head? == some '.'

/-- Model of Rust's `Path::extension()`: the segment after the last `.`,
provided that dot is not the leading character (so `.md` has no
extension, `agent1.md` has extension `md`, `foo.` has extension ``). -/
def fileExtension (name : String) : Option String :=
  let rest := name.toList.drop 1
  if rest.contains '.' then
    some (String.mk ((rest.reverse.takeWhile (fun ch => ch ≠ '.')).reverse))
  else
    none

/-- `serde_json::Value::get` on an object (`config.get("mcpServers")`). -/
def jsonGet (j : Json) (k : String) : Option Json :=
  match j with
  | .obj fields => (fields.find? (fun f => f.1 = k)).map (fun f => f.2)
  | _ => none

/-- Models `generate_project_id` (`project_commands.rs:273`): the Rust code
hashes the path with `DefaultHasher` and formats the digest.  The claims
only need a deterministic function of the path, so the digest itself is
modeled as the joined path. -/
def generate_project_id (path : List String) : String :=
  String.intercalate "/" path

/-- Model of `count_config_files` (`project_commands.rs:217`): counts how
many of `.mcp.json` and `.claude/settings.json` EXIST (any node kind, via
`Path::exists`). -/
def count_config_files (children : List FsNode) : Nat :=
  (if (lookupChild children ".mcp.json").isSome then 1 else 0) +
  (if (match lookupChild children ".claude" with
       | some (FsNode.dir _ ccs _ _ _) => (lookupChild ccs "settings.json").isSome
       | _ => false) then 1 else 0)

/-- Model of `count_mcp_servers` (`project_commands.rs:231`).  The Rust
function reads and parses the file at a path; here it receives the file's
parsed content, `none` standing for a read or parse failure (both surface
as an `Err` to the caller). -/
def count_mcp_servers (content : Option Json) : Except AppError Nat :=
  match content with
  | none => Except.error (AppError.Filesystem "read or parse failure")
  | some j =>
    match jsonGet j "mcpServers" with
    | some (Json.obj fields) => Except.ok fields.length
    | _ => Except.ok 0

/-- Model of `count_sub_agents` (`project_commands.rs:251`): reads the
given directory (despite its doc comment, the caller passes `.claude`
itself, not `.claude/agents`) and counts files with extension `md`; any
read, join or per-entry failure is an `Err`. -/
def count_sub_agents (node : FsNode) : Except AppError Nat :=
  match node with
  | FsNode.file _ _ _ => Except.error (AppError.Filesystem "not a directory")
  | FsNode.dir _ cs ro _ _ =>
    match ro with
    | ReadOutcome.ok =>
      if cs.all (fun c => c.entryOk) then
        Except.ok ((cs.filter (fun c =>
          c.isFile && fileExtension c.name == some "md")).length)
      else
        Except.error (AppError.Filesystem "entry read failure")
    | ReadOutcome.ioError e => Except.error e
    | ReadOutcome.joinError => Except.error (AppError.Filesystem "Task error: join error")

/-- Model of `check_if_project` (`project_commands.rs:144`).  `dirPath` is
the absolute path of the directory.  The Rust signature returns
`Result<Option<DiscoveredProject>, AppError>` but has no reachable error
path, so the model returns the `Option` directly. -/
def check_if_project (node : FsNode) (dirPath : List String) : Option DiscoveredProject :=
  let children := node.childrenD
  let mcpFile := lookupChild children ".mcp.json"
  let has_mcp := match mcpFile with
    | some (FsNode.file _ _ _) => true
    | _ => false
  let claudeNode := lookupChild children ".claude"
  let has_claude_settings := match claudeNode with
    | some (FsNode.dir _ ccs _ _ _) =>
      (match lookupChild ccs "settings.json" with
       | some (FsNode.file _ _ _) => true
       | _ => false)
    | _ => false
  if !has_mcp && !has_claude_settings then
    none
  else
    some
      { id := generate_project_id dirPath
        name := (dirPath.getLast?).getD "unknown"
        path := dirPath
        config_file_count := count_config_files children
        last_modified := node.mtimeD.getD 0
        config_sources :=
          { user := has_claude_settings, project := has_mcp, local_ := false }
        mcp_servers :=
          if has_mcp then
            match count_mcp_servers (match mcpFile with
              | some (FsNode.file _ c _) => c
              | _ => none) with
            | Except.ok count => some [toString count ++ " servers"]
            | Except.error _ => none
          else none
        sub_agents :=
          match claudeNode with
          | some (FsNode.dir nm ccs ro eo mt) =>
            (match count_sub_agents (FsNode.dir nm ccs ro eo mt) with
             | Except.ok count => some [toString count ++ " agents"]
             | Except.error _ => none)
          | _ => none }

/-- One entry of the scanner's explicit work stack.  The Rust stack holds
`(PathBuf, u32)` pairs; the model pairs the path with the subtree it
denotes so the loop can read its entries. -/
structure StackEntry where
  node : FsNode
  path : List String
  depth : Nat

/-- The `while let Some(..) = dir_stack.pop()` loop of `scan_directory`
(`project_commands.rs:88`), with the list head as the top of the stack.
The loop pops one entry per iteration, so it performs at most
`stackFuel` iterations (each pop removes a node of positive size and
pushes only proper subtrees of it); `fuel` makes that termination
argument explicit, and `scanLoopFuel_fuel_irrel` below shows any fuel
past the bound computes the loop's limit behavior. -/
def scanLoopFuel (config : ScanConfig) :
    Nat → List DiscoveredProject → List StackEntry →
    Except AppError (List DiscoveredProject)
  | _, projects, [] => Except.ok projects
  | 0, projects, _ :: _ => Except.ok projects
  | fuel + 1, projects, e :: rest =>
    if e.path = ["proc"] ∨ e.path = ["sys"] ∨ e.path = ["dev"] then
      scanLoopFuel config fuel projects rest
    else if config.max_depth ≤ e.depth then
      scanLoopFuel config fuel projects rest
    else
      match e.node with
      | FsNode.file _ _ _ =>
        Except.error (AppError.Filesystem "Task error: not a directory")
      | FsNode.dir _ children ro _ _ =>
        match ro with
        | ReadOutcome.joinError => scanLoopFuel config fuel projects rest
        | ReadOutcome.ioError err =>
          Except.error (AppError.Filesystem ("Task error: " ++ err.display))
        | ReadOutcome.ok =>
          let visible := children.filter (fun c =>
            c.entryOk && (config.include_hidden || !(hiddenName c.name)))
          let subdirs := visible.filter (fun c => c.isDir)
          let found := subdirs.filterMap (fun c =>
            check_if_project c (e.path ++ [c.name]))
          let pushes :=
            if e.depth + 1 < config.max_depth then
              (subdirs.map (fun c =>
                StackEntry.mk c (e.path ++ [c.name]) (e.depth + 1))).reverse
            else []
          scanLoopFuel config fuel (projects ++ found) (pushes ++ rest)

/-- Fuel sufficient to run the scan loop to completion from a stack. -/
def stackFuel (stack : List StackEntry) : Nat :=
  (stack.map (fun e => e.node.size)).sum + 1

/-- Model of `scan_directory` (`project_commands.rs:80`): seed the stack
with the start directory at `initial_depth` and run the loop. -/
def scan_directory (start_dir : FsNode) (start_path : List String)
    (config : ScanConfig) (initial_depth : Nat) :
    Except AppError (List DiscoveredProject) :=
  scanLoopFuel config (stackFuel [StackEntry.mk start_dir start_path initial_depth])
    [] [StackEntry.mk start_dir start_path initial_depth]

/-- Model of `scan_projects_with_config` (`project_commands.rs:67`).
`home_dir` is the result of `dirs::home_dir()`: the user's home subtree
and its absolute path, or `none` when the home directory cannot be
resolved. -/
def scan_projects_with_config (home_dir : Option (FsNode × List String))
    (config : ScanConfig) : Except AppError (List DiscoveredProject) :=
  match home_dir with
  | none => Except.error (AppError.Filesystem "Failed to get home directory")
  | some (fs, path) => scan_directory fs path config 0

/-- Model of `scan_projects` (`project_commands.rs:48`): normalize the
requested depth (0 defaults to 3, anything above 5 is capped at 5) and
scan the home directory with hidden entries excluded. -/
def scan_projects (home_dir : Option (FsNode × List String)) (depth : Nat) :
    Except AppError (List DiscoveredProject) :=
  let max_depth := if depth = 0 then 3 else if depth > 5 then 5 else depth
  scan_projects_with_config home_dir { max_depth := max_depth, include_hidden := false }

/-- The record built by `calculate_diff` when an id is present on both
sides with equal values (`project_commands.rs:493`). -/
def matchResult (left_cap right_cap : Capability) : DiffResult :=
  { capability_id := left_cap.id
    left_value := some left_cap
    right_value := some right_cap
    status := DiffStatus.Match
    severity := DiffSeverity.Low
    highlight_class := some "" }

/-- The record built by `calculate_diff` when an id is present on both
sides with different values (`project_commands.rs:503`). -/
def differentResult (left_cap right_cap : Capability) : DiffResult :=
  { capability_id := left_cap.id
    left_value := some left_cap
    right_value := some right_cap
    status := DiffStatus.Different
    severity := DiffSeverity.Medium
    highlight_class := some "bg-yellow-100 text-yellow-800" }

/-- The record built by `calculate_diff` for a left-only id
(`project_commands.rs:514`). -/
def onlyLeftResult (left_cap : Capability) : DiffResult :=
  { capability_id := left_cap.id
    left_value := some left_cap
    right_value := none
    status := DiffStatus.OnlyLeft
    severity := DiffSeverity.Medium
    highlight_class := some "bg-blue-100 text-blue-800" }

/-- The record built by `calculate_diff` for a right-only id
(`project_commands.rs:534`). -/
def onlyRightResult (right_cap : Capability) : DiffResult :=
  { capability_id := right_cap.id
    left_value := none
    right_value := some right_cap
    status := DiffStatus.OnlyRight
    severity := DiffSeverity.Medium
    highlight_class := some "bg-green-100 text-green-800" }

/-- The set of capability ids carrying a given status in a diff-result
list. -/
def statusIds (s : DiffStatus) (ds : List DiffResult) : Finset String :=
  ((ds.filter (fun d => d.status = s)).map (fun d => d.capability_id)).toFinset

/-- Concrete data used by the closed counterexample and witness
theorems below. -/
def capXa : Capability :=
  { id := "x", key := "k", value := Json.str "a", source := "s" }

def capXb : Capability :=
  { id := "x", key := "k", value := Json.str "b", source := "s" }

def capY : Capability :=
  { id := "y", key := "k2", value := Json.str "w", source := "s" }

def dPlain : DiffResult :=
  { capability_id := "x", left_value := some capXa, right_value := none,
    status := DiffStatus.OnlyLeft, severity := DiffSeverity.Medium,
    highlight_class := none }

def dCustom : DiffResult :=
  { capability_id := "y", left_value := none, right_value := some capY,
    status := DiffStatus.OnlyRight, severity := DiffSeverity.Medium,
    highlight_class := some "custom-class" }

def mcpTwo : Json :=
  Json.obj [("mcpServers", Json.obj [("a", Json.obj []), ("b", Json.obj [])])]

def pNode : FsNode :=
  FsNode.dir "P" [FsNode.file ".mcp.json" (some mcpTwo) true]
    ReadOutcome.ok true none

def fsW : FsNode :=
  FsNode.dir "home"
    [FsNode.dir "proj"
      [FsNode.file ".mcp.json" (some (Json.obj [("mcpServers", Json.obj [])])) true]
      ReadOutcome.ok true none]
    ReadOutcome.ok true none

def projW : DiscoveredProject :=
  { id := "home/proj"
    name := "proj"
    path := ["home", "proj"]
    config_file_count := 1
    last_modified := 0
    config_sources := { user := false, project := true, local_ := false }
    mcp_servers := some ["0 servers"]
    sub_agents := none }

def fsBad : FsNode :=
  FsNode.dir "home"
    [FsNode.dir "bad" [] (ReadOutcome.ioError (AppError.Permission "denied")) true none]
    ReadOutcome.ok true none

def fsJoin : FsNode :=
  FsNode.dir "home"
    [FsNode.dir "flaky" [] ReadOutcome.joinError true none]
    ReadOutcome.ok true none

/-- `calculate_diff` written with the named result builders. -/
theorem calculate_diff_eq (L R : List Capability) :
    calculate_diff L R =
      L.map (fun lc =>
        match hashMapGet R lc.id with
        | some rc =>
          if lc.value = rc.value then matchResult lc rc else differentResult lc rc
        | none => onlyLeftResult lc) ++
      (R.filter (fun rc => !(hashMapGet L rc.id).isSome)).map onlyRightResult := rfl

/-- The insert-overwrite fold equals a first-match search from the rear. -/
theorem hashMapGet_eq_find (caps : List Capability) (i : String) :
    hashMapGet caps i = caps.reverse.find? (fun c => c.id = i) := by
  induction caps using List.reverseRecOn with
  | nil => rfl
  | append_singleton xs x ih =>
    by_cases h : x.id = i
    · simp [hashMapGet, List.foldl_append, h]
    · simp only [hashMapGet, List.foldl_append, List.foldl_cons, List.foldl_nil,
        if_neg h, List.reverse_append, List.reverse_cons, List.reverse_nil,
        List.nil_append, List.singleton_append, List.find?_cons, decide_eq_false h]
      exact ih

/-- The lookup map contains an id exactly when some capability bears it. -/
theorem hashMapGet_isSome_iff (caps : List Capability) (i : String) :
    (hashMapGet caps i).isSome = true ↔ i ∈ caps.map (fun c => c.id) := by
  rw [hashMapGet_eq_find, List.find?_isSome]
  simp

/-- The lookup misses exactly when no capability bears the id. -/
theorem hashMapGet_eq_none_iff (caps : List Capability) (i : String) :
    hashMapGet caps i = none ↔ i ∉ caps.map (fun c => c.id) := by
  constructor
  · intro h hc
    rw [← hashMapGet_isSome_iff] at hc
    rw [h] at hc
    simp at hc
  · intro h
    cases hh : hashMapGet caps i with
    | none => rfl
    | some c =>
      exact absurd ((hashMapGet_isSome_iff caps i).1 (by rw [hh]; rfl)) h

/-- A successful lookup returns a member of the list bearing the id. -/
theorem hashMapGet_mem (caps : List Capability) (i : String) (c : Capability)
    (h : hashMapGet caps i = some c) : c ∈ caps ∧ c.id = i := by
  rw [hashMapGet_eq_find] at h
  refine ⟨List.mem_reverse.1 (List.mem_of_find?_eq_some h), ?_⟩
  have := List.find?_some h
  simpa using this

/-- When ids are distinct within the list, looking up a member's id
returns that member. -/
theorem hashMapGet_self (caps : List Capability) (c : Capability)
    (hnd : (caps.map (fun x => x.id)).Nodup) (hc : c ∈ caps) :
    hashMapGet caps c.id = some c := by
  cases hh : hashMapGet caps c.id with
  | none =>
    rw [hashMapGet_eq_none_iff] at hh
    exact absurd (List.mem_map_of_mem _ hc) hh
  | some y =>
    obtain ⟨hy, hyid⟩ := hashMapGet_mem _ _ _ hh
    have := List.inj_on_of_nodup_map hnd hy hc hyid
    rw [this]

/-- C5: every `DiffResult` produced by `calculate_diff` has `left_value`
and `right_value` never both `none`, exactly one of them `none` for
`OnlyLeft`/`OnlyRight` and both `some` for `Match`/`Different`; the status
is never `Conflict`, the severity is never `High`, and the severity is
`Low` exactly when the status is `Match`. -/
theorem c5_diff_result_invariants (L R : List Capability) (d : DiffResult)
    (hd : d ∈ calculate_diff L R) :
    (¬ (d.left_value = none ∧ d.right_value = none)) ∧
    (d.status = DiffStatus.OnlyLeft → d.left_value.isSome = true ∧ d.right_value = none) ∧
    (d.status = DiffStatus.OnlyRight → d.left_value = none ∧ d.right_value.isSome = true) ∧
    ((d.status = DiffStatus.Match ∨ d.status = DiffStatus.Different) →
      d.left_value.isSome = true ∧ d.right_value.isSome = true) ∧
    d.status ≠ DiffStatus.Conflict ∧
    d.severity ≠ DiffSeverity.High ∧
    (d.severity = DiffSeverity.Low ↔ d.status = DiffStatus.Match) := by
  rw [calculate_diff_eq] at hd
  rcases List.mem_append.1 hd with hl | hr
  · obtain ⟨lc, hlc, rfl⟩ := List.mem_map.1 hl
    cases h : hashMapGet R lc.id with
    | none => simp [h, onlyLeftResult]
    | some rc =>
      by_cases hv : lc.value = rc.value
      · simp [h, hv, matchResult]
      · simp [h, hv, differentResult]
  · obtain ⟨rc, hrc, rfl⟩ := List.mem_map.1 hr
    simp [onlyRightResult]

/-- C5 witness: the invariants hold at a concrete result of a concrete
diff. -/
theorem c5_witness :
    onlyLeftResult capXa ∈ calculate_diff [capXa] [] ∧
    ((¬ ((onlyLeftResult capXa).left_value = none ∧ (onlyLeftResult capXa).right_value = none)) ∧
    ((onlyLeftResult capXa).status = DiffStatus.OnlyLeft →
      (onlyLeftResult capXa).left_value.isSome = true ∧ (onlyLeftResult capXa).right_value = none) ∧
    ((onlyLeftResult capXa).status = DiffStatus.OnlyRight →
      (onlyLeftResult capXa).left_value = none ∧ (onlyLeftResult capXa).right_value.isSome = true) ∧
    (((onlyLeftResult capXa).status = DiffStatus.Match ∨
        (onlyLeftResult capXa).status = DiffStatus.Different) →
      (onlyLeftResult capXa).left_value.isSome = true ∧
        (onlyLeftResult capXa).right_value.isSome = true) ∧
    (onlyLeftResult capXa).status ≠ DiffStatus.Conflict ∧
    (onlyLeftResult capXa).severity ≠ DiffSeverity.High ∧
    ((onlyLeftResult capXa).severity = DiffSeverity.Low ↔
      (onlyLeftResult capXa).status = DiffStatus.Match)) :=
  ⟨by decide, c5_diff_result_invariants [capXa] [] (onlyLeftResult capXa) (by decide)⟩

/-- C9: `categorize_differences` fills the highlight tag from the status
only on results whose tag is `none`, leaves results that already carry a
tag untouched, changes no other field, and is idempotent. -/
theorem c9_categorize_idempotent (xs : List DiffResult) :
    categorize_differences (categorize_differences xs) = categorize_differences xs ∧
    (∀ d ∈ xs, d.highlight_class.isSome = true → categorizeOne d = d) ∧
    (∀ d ∈ xs, d.highlight_class = none →
      categorizeOne d = { d with highlight_class := some (statusHighlightClass d.status) }) ∧
    (∀ d ∈ xs, (categorizeOne d).capability_id = d.capability_id ∧
      (categorizeOne d).left_value = d.left_value ∧
      (categorizeOne d).right_value = d.right_value ∧
      (categorizeOne d).status = d.status ∧
      (categorizeOne d).severity = d.severity) := by
  refine ⟨?_, ?_, ?_, ?_⟩
  · unfold categorize_differences
    rw [List.map_map]
    apply List.map_congr_left
    intro d _
    show categorizeOne (categorizeOne d) = categorizeOne d
    cases hc : d.highlight_class with
    | none => simp [categorizeOne, hc]
    | some s => simp [categorizeOne, hc]
  · intro d _ h
    cases hc : d.highlight_class with
    | none => rw [hc] at h; simp at h
    | some s => simp [categorizeOne, hc]
  · intro d _ h
    simp [categorizeOne, h]
  · intro d _
    cases hc : d.highlight_class with
    | none => simp [categorizeOne, hc]
    | some s => simp [categorizeOne, hc]

/-- C9 witness: idempotence and the per-element facts at concrete
results, including one carrying an explicit tag. -/
theorem c9_witness :
    categorize_differences (categorize_differences [dCustom, dPlain]) =
      categorize_differences [dCustom, dPlain] ∧
    categorizeOne dCustom = dCustom ∧
    categorizeOne dPlain =
      { dPlain with highlight_class := some (statusHighlightClass dPlain.status) } :=
  ⟨(c9_categorize_idempotent [dCustom, dPlain]).1,
   (c9_categorize_idempotent [dCustom, dPlain]).2.1 dCustom (by decide) (by decide),
   (c9_categorize_idempotent [dCustom, dPlain]).2.2.1 dPlain (by decide) (by decide)⟩

/-- C8: `scan_projects` normalizes its depth argument: 0 becomes 3, any
value above 5 becomes 5, and a value in [1,5] is used unchanged as the
scan's `max_depth` (with hidden entries excluded either way). -/
theorem c8_depth_normalization (home_dir : Option (FsNode × List String)) (depth : Nat) :
    (depth = 0 → scan_projects home_dir depth =
      scan_projects_with_config home_dir { max_depth := 3, include_hidden := false }) ∧
    (5 < depth → scan_projects home_dir depth =
      scan_projects_with_config home_dir { max_depth := 5, include_hidden := false }) ∧
    (1 ≤ depth → depth ≤ 5 → scan_projects home_dir depth =
      scan_projects_with_config home_dir { max_depth := depth, include_hidden := false }) := by
  refine ⟨fun h => ?_, fun h => ?_, fun h1 h2 => ?_⟩
  · subst h; rfl
  · simp only [scan_projects]
    rw [if_neg (by omega), if_pos (by omega)]
  · simp only [scan_projects]
    rw [if_neg (by omega), if_neg (by omega)]

/-- C8 witness: the three normalization regimes at concrete depths. -/
theorem c8_witness :
    scan_projects none 0 =
      scan_projects_with_config none { max_depth := 3, include_hidden := false } ∧
    scan_projects none 7 =
      scan_projects_with_config none { max_depth := 5, include_hidden := false } ∧
    scan_projects none 4 =
      scan_projects_with_config none { max_depth := 4, include_hidden := false } :=
  ⟨(c8_depth_normalization none 0).1 rfl,
   (c8_depth_normalization none 7).2.1 (by omega),
   (c8_depth_normalization none 4).2.2 (by omega) (by omega)⟩

/-- Summary statistics over an all-`Match` result list are all zero. -/
theorem summary_stats_all_match (ds : List DiffResult)
    (h : ∀ d ∈ ds, d.status = DiffStatus.Match) :
    calculate_summary_stats ds =
      { total_differences := 0, only_in_a := 0, only_in_b := 0, different_values := 0 } := by
  unfold calculate_summary_stats
  have key : ∀ (l : List DiffResult), (∀ d ∈ l, d.status = DiffStatus.Match) →
      ∀ acc : Nat × Nat × Nat,
      l.foldl (fun (acc : Nat × Nat × Nat) diff =>
        match diff.status with
        | DiffStatus.OnlyLeft => (acc.1 + 1, acc.2.1, acc.2.2)
        | DiffStatus.OnlyRight => (acc.1, acc.2.1 + 1, acc.2.2)
        | DiffStatus.Different => (acc.1, acc.2.1, acc.2.2 + 1)
        | DiffStatus.Conflict => (acc.1, acc.2.1, acc.2.2 + 1)
        | DiffStatus.Match => acc) acc = acc := by
    intro l
    induction l with
    | nil => intro _ acc; rfl
    | cons d ds ih =>
      intro hall acc
      rw [List.foldl_cons, hall d (List.mem_cons_self d ds)]
      exact ih (fun e he => hall e (List.mem_cons_of_mem d he)) acc
  rw [key ds h (0, 0, 0)]
  rfl

/-- C3 counterexample: with a duplicated id whose occurrences carry
different values, `calculate_diff L L` contains a `Different` result and
the summary total is 1, so the claim fails as stated. -/
theorem c3_counterexample :
    ¬ ((∀ d ∈ calculate_diff [capXa, capXb] [capXa, capXb],
          d.status = DiffStatus.Match) ∧
       (calculate_summary_stats
          (calculate_diff [capXa, capXb] [capXa, capXb])).total_differences = 0) ∧
    ((calculate_diff [capXa, capXb] [capXa, capXb]).map (fun d => d.status) =
      [DiffStatus.Different, DiffStatus.Match]) ∧
    (calculate_summary_stats
      (calculate_diff [capXa, capXb] [capXa, capXb])).total_differences = 1 := by
  decide

/-- C3 (amended): when the ids within `L` are distinct, `calculate_diff L L`
yields only `Match` results and the summary total is 0. -/
theorem c3_diff_self_match (L : List Capability)
    (hL : (L.map (fun c => c.id)).Nodup) :
    (∀ d ∈ calculate_diff L L, d.status = DiffStatus.Match) ∧
    (calculate_summary_stats (calculate_diff L L)).total_differences = 0 := by
  have hall : ∀ d ∈ calculate_diff L L, d.status = DiffStatus.Match := by
    intro d hd
    rw [calculate_diff_eq] at hd
    rcases List.mem_append.1 hd with hl | hr
    · obtain ⟨lc, hlc, rfl⟩ := List.mem_map.1 hl
      rw [hashMapGet_self L lc hL hlc]
      simp [matchResult]
    · obtain ⟨rc, hrc, rfl⟩ := List.mem_map.1 hr
      exfalso
      have hp := (List.mem_filter.1 hrc).2
      rw [hashMapGet_self L rc hL (List.mem_filter.1 hrc).1] at hp
      simp at hp
  exact ⟨hall, by rw [summary_stats_all_match _ hall]⟩

/-- C3 witness: a concrete duplicate-free collection diffed against
itself. -/
theorem c3_witness :
    (∀ d ∈ calculate_diff [capXa, capY] [capXa, capY],
      d.status = DiffStatus.Match) ∧
    (calculate_summary_stats
      (calculate_diff [capXa, capY] [capXa, capY])).total_differences = 0 :=
  c3_diff_self_match [capXa, capY] (by decide)

/-- C1 counterexample: a side with a duplicated id yields one result per
ELEMENT, not one per id — two results for a one-id union. -/
theorem c1_counterexample :
    (calculate_diff [capXa, capXb] []).length = 2 ∧
    ((([capXa, capXb] : List Capability).map (fun c => c.id)) ++
      (([] : List Capability).map (fun c => c.id))).toFinset.card = 1 ∧
    ((calculate_diff [capXa, capXb] []).map (fun d => d.capability_id)) = ["x", "x"] := by
  decide

/-- The capability ids of a diff are the left ids followed by the ids of
right elements missing on the left. -/
theorem calculate_diff_ids (L R : List Capability) :
    (calculate_diff L R).map (fun d => d.capability_id) =
      L.map (fun c => c.id) ++
      (R.filter (fun rc => !(hashMapGet L rc.id).isSome)).map (fun c => c.id) := by
  rw [calculate_diff_eq, List.map_append, List.map_map, List.map_map]
  congr 1
  · apply List.map_congr_left
    intro lc _
    simp only [Function.comp_apply]
    cases h : hashMapGet R lc.id with
    | none => simp [onlyLeftResult]
    | some rc =>
      by_cases hv : lc.value = rc.value
      · simp [hv, matchResult]
      · simp [hv, differentResult]

/-- C1 (amended): `calculate_diff` emits one result per element of the
left list plus one per right element whose id is absent on the left; when
ids are distinct within each side this is exactly one result per id in
the union of the two id sets. -/
theorem c1_diff_ids_union (L R : List Capability)
    (hL : (L.map (fun c => c.id)).Nodup) (hR : (R.map (fun c => c.id)).Nodup) :
    ((calculate_diff L R).map (fun d => d.capability_id)).Nodup ∧
    ((calculate_diff L R).map (fun d => d.capability_id)).toFinset =
      (L.map (fun c => c.id)).toFinset ∪ (R.map (fun c => c.id)).toFinset := by
  rw [calculate_diff_ids]
  constructor
  · refine List.Nodup.append hL (((List.filter_sublist R).map _).nodup hR) ?_
    intro a ha hb
    obtain ⟨rc, hrc, rfl⟩ := List.mem_map.1 hb
    have hp := (List.mem_filter.1 hrc).2
    rw [← hashMapGet_isSome_iff] at ha
    rw [ha] at hp
    simp at hp
  · ext i
    simp only [List.mem_toFinset, List.mem_append, List.mem_map, List.mem_filter,
      Finset.mem_union]
    constructor
    · rintro (⟨c, hc, rfl⟩ | ⟨c, ⟨hcR, _⟩, rfl⟩)
      · exact Or.inl ⟨c, hc, rfl⟩
      · exact Or.inr ⟨c, hcR, rfl⟩
    · rintro (⟨c, hc, rfl⟩ | ⟨c, hc, rfl⟩)
      · exact Or.inl ⟨c, hc, rfl⟩
      · by_cases hiL : c.id ∈ L.map (fun x => x.id)
        · obtain ⟨c2, hc2, hid⟩ := List.mem_map.1 hiL
          exact Or.inl ⟨c2, hc2, hid⟩
        · refine Or.inr ⟨c, ⟨hc, ?_⟩, rfl⟩
          rw [(hashMapGet_eq_none_iff L c.id).2 hiL]
          rfl

/-- C1 witness: duplicate-free sides produce one result per union id. -/
theorem c1_witness :
    ((calculate_diff [capXa] [capY]).map (fun d => d.capability_id)).Nodup ∧
    ((calculate_diff [capXa] [capY]).map (fun d => d.capability_id)).toFinset =
      (([capXa] : List Capability).map (fun c => c.id)).toFinset ∪
      (([capY] : List Capability).map (fun c => c.id)).toFinset :=
  c1_diff_ids_union [capXa] [capY] (by decide) (by decide)

/-- Membership in `statusIds` unpacked. -/
theorem mem_statusIds_iff (s : DiffStatus) (ds : List DiffResult) (i : String) :
    i ∈ statusIds s ds ↔ ∃ d ∈ ds, d.status = s ∧ d.capability_id = i := by
  unfold statusIds
  simp [List.mem_filter, and_assoc]

/-- An id carries `OnlyLeft` in `calculate_diff L R` exactly when it
occurs on the left and not on the right. -/
theorem statusIds_onlyLeft (L R : List Capability) (i : String) :
    i ∈ statusIds DiffStatus.OnlyLeft (calculate_diff L R) ↔
      (i ∈ L.map (fun c => c.id) ∧ i ∉ R.map (fun c => c.id)) := by
  rw [mem_statusIds_iff]
  constructor
  · rintro ⟨d, hd, hstat, rfl⟩
    rw [calculate_diff_eq] at hd
    rcases List.mem_append.1 hd with hl | hr
    · obtain ⟨lc, hlc, rfl⟩ := List.mem_map.1 hl
      cases h : hashMapGet R lc.id with
      | none =>
        exact ⟨List.mem_map_of_mem _ hlc, (hashMapGet_eq_none_iff R lc.id).1 h⟩
      | some rc =>
        rw [h] at hstat
        by_cases hv : lc.value = rc.value <;>
          simp [hv, matchResult, differentResult] at hstat
    · obtain ⟨rc, hrc, rfl⟩ := List.mem_map.1 hr
      exact absurd hstat (by simp [onlyRightResult])
  · rintro ⟨hiL, hiR⟩
    obtain ⟨lc, hlc, rfl⟩ := List.mem_map.1 hiL
    have h : hashMapGet R lc.id = none := (hashMapGet_eq_none_iff R lc.id).2 hiR
    refine ⟨onlyLeftResult lc, ?_, by simp [onlyLeftResult], by simp [onlyLeftResult]⟩
    rw [calculate_diff_eq]
    refine List.mem_append.2 (Or.inl (List.mem_map.2 ⟨lc, hlc, ?_⟩))
    simp [h]

/-- An id carries `OnlyRight` in `calculate_diff L R` exactly when it
occurs on the right and not on the left. -/
theorem statusIds_onlyRight (L R : List Capability) (i : String) :
    i ∈ statusIds DiffStatus.OnlyRight (calculate_diff L R) ↔
      (i ∈ R.map (fun c => c.id) ∧ i ∉ L.map (fun c => c.id)) := by
  rw [mem_statusIds_iff]
  constructor
  · rintro ⟨d, hd, hstat, rfl⟩
    rw [calculate_diff_eq] at hd
    rcases List.mem_append.1 hd with hl | hr
    · obtain ⟨lc, hlc, rfl⟩ := List.mem_map.1 hl
      cases h : hashMapGet R lc.id with
      | none =>
        rw [h] at hstat
        exact absurd hstat (by simp [onlyLeftResult])
      | some rc =>
        rw [h] at hstat
        by_cases hv : lc.value = rc.value <;>
          simp [hv, matchResult, differentResult] at hstat
    · obtain ⟨rc, hrc, rfl⟩ := List.mem_map.1 hr
      obtain ⟨hrcR, hp⟩ := List.mem_filter.1 hrc
      refine ⟨List.mem_map_of_mem _ hrcR, ?_⟩
      intro hmem
      rw [← hashMapGet_isSome_iff] at hmem
      simp only [onlyRightResult] at hmem
      rw [hmem] at hp
      simp at hp
  · rintro ⟨hiR, hiL⟩
    obtain ⟨rc, hrc, rfl⟩ := List.mem_map.1 hiR
    have h : hashMapGet L rc.id = none := (hashMapGet_eq_none_iff L rc.id).2 hiL
    refine ⟨onlyRightResult rc, ?_, by simp [onlyRightResult], by simp [onlyRightResult]⟩
    rw [calculate_diff_eq]
    refine List.mem_append.2
      (Or.inr (List.mem_map.2 ⟨rc, List.mem_filter.2 ⟨hrc, ?_⟩, rfl⟩))
    simp [h]

/-- With distinct ids on the right, an id carries `Different` in
`calculate_diff L R` exactly when the two sides hold it with different
values. -/
theorem statusIds_different (L R : List Capability) (i : String)
    (hR : (R.map (fun c => c.id)).Nodup) :
    i ∈ statusIds DiffStatus.Different (calculate_diff L R) ↔
      ∃ lc ∈ L, ∃ rc ∈ R, lc.id = i ∧ rc.id = i ∧ ¬ lc.value = rc.value := by
  rw [mem_statusIds_iff]
  constructor
  · rintro ⟨d, hd, hstat, rfl⟩
    rw [calculate_diff_eq] at hd
    rcases List.mem_append.1 hd with hl | hr
    · obtain ⟨lc, hlc, rfl⟩ := List.mem_map.1 hl
      cases h : hashMapGet R lc.id with
      | none =>
        rw [h] at hstat
        exact absurd hstat (by simp [onlyLeftResult])
      | some rc =>
        rw [h] at hstat
        by_cases hv : lc.value = rc.value
        · simp [hv, matchResult] at hstat
        · obtain ⟨hrcR, hrcid⟩ := hashMapGet_mem R lc.id rc h
          refine ⟨lc, hlc, rc, hrcR, ?_, ?_, hv⟩
          · simp [hv, differentResult]
          · simp [hv, differentResult, hrcid]
    · obtain ⟨rc, hrc, rfl⟩ := List.mem_map.1 hr
      exact absurd hstat (by simp [onlyRightResult])
  · rintro ⟨lc, hlc, rc, hrc, hlcid, hrcid, hv⟩
    have h : hashMapGet R lc.id = some rc := by
      rw [hlcid, ← hrcid]
      exact hashMapGet_self R rc hR hrc
    refine ⟨differentResult lc rc, ?_, by simp [differentResult],
      by simp [differentResult, hlcid]⟩
    rw [calculate_diff_eq]
    refine List.mem_append.2 (Or.inl (List.mem_map.2 ⟨lc, hlc, ?_⟩))
    simp [h, hv]

/-- C4: the `OnlyLeft` ids of `diff(L,R)` are the `OnlyRight` ids of
`diff(R,L)` and vice versa; and when ids are distinct within each side,
the `Different` id sets of the two directions coincide. -/
theorem c4_symmetry (L R : List Capability) :
    statusIds DiffStatus.OnlyLeft (calculate_diff L R) =
      statusIds DiffStatus.OnlyRight (calculate_diff R L) ∧
    statusIds DiffStatus.OnlyRight (calculate_diff L R) =
      statusIds DiffStatus.OnlyLeft (calculate_diff R L) ∧
    ((L.map (fun c => c.id)).Nodup → (R.map (fun c => c.id)).Nodup →
      statusIds DiffStatus.Different (calculate_diff L R) =
        statusIds DiffStatus.Different (calculate_diff R L)) := by
  refine ⟨?_, ?_, fun hL hR => ?_⟩
  · ext i
    rw [statusIds_onlyLeft, statusIds_onlyRight]
  · ext i
    rw [statusIds_onlyRight, statusIds_onlyLeft]
  · ext i
    rw [statusIds_different L R i hR, statusIds_different R L i hL]
    constructor
    · rintro ⟨lc, hlc, rc, hrc, h1, h2, hv⟩
      exact ⟨rc, hrc, lc, hlc, h2, h1, fun hh => hv hh.symm⟩
    · rintro ⟨rc, hrc, lc, hlc, h1, h2, hv⟩
      exact ⟨lc, hlc, rc, hrc, h2, h1, fun hh => hv hh.symm⟩

/-- C4 counterexample: with a duplicated id on one side, `diff(L,R)` has
no `Different` result while `diff(R,L)` has one, so the `Different` id
sets differ. -/
theorem c4_counterexample :
    statusIds DiffStatus.Different (calculate_diff [capXa] [capXb, capXa]) = ∅ ∧
    statusIds DiffStatus.Different (calculate_diff [capXb, capXa] [capXa]) = {"x"} ∧
    ¬ (statusIds DiffStatus.Different (calculate_diff [capXa] [capXb, capXa]) =
       statusIds DiffStatus.Different (calculate_diff [capXb, capXa] [capXa])) := by
  refine ⟨?_, ?_, ?_⟩ <;> decide

/-- C4 witness: the three correspondences at concrete duplicate-free
collections. -/
theorem c4_witness :
    statusIds DiffStatus.OnlyLeft (calculate_diff [capXa] [capY]) =
      statusIds DiffStatus.OnlyRight (calculate_diff [capY] [capXa]) ∧
    statusIds DiffStatus.OnlyRight (calculate_diff [capXa] [capY]) =
      statusIds DiffStatus.OnlyLeft (calculate_diff [capY] [capXa]) ∧
    statusIds DiffStatus.Different (calculate_diff [capXa] [capY]) =
      statusIds DiffStatus.Different (calculate_diff [capY] [capXa]) :=
  ⟨(c4_symmetry [capXa] [capY]).1, (c4_symmetry [capXa] [capY]).2.1,
   (c4_symmetry [capXa] [capY]).2.2 (by decide) (by decide)⟩

/-- A project emitted by `check_if_project` carries the directory path it
was probed at. -/
theorem check_if_project_path (node : FsNode) (p : List String)
    (pr : DiscoveredProject) (h : check_if_project node p = some pr) :
    pr.path = p := by
  simp only [check_if_project] at h
  split at h
  · cases h
  · injection h with h2
    subst h2
    rfl

/-- Every stack entry popped with a path `rootPath ++ s` of recorded depth
`s.length` only emits projects between 1 and `max_depth` levels below the
root and only pushes entries satisfying the same discipline. -/
theorem scanLoop_path_inv (config : ScanConfig) (rootPath : List String) :
    ∀ (fuel : Nat) (projects : List DiscoveredProject) (stack : List StackEntry)
      (res : List DiscoveredProject),
    scanLoopFuel config fuel projects stack = Except.ok res →
    (∀ e ∈ stack, ∃ s, e.path = rootPath ++ s ∧ s.length = e.depth) →
    (∀ pr ∈ projects, ∃ s, pr.path = rootPath ++ s ∧ 1 ≤ s.length ∧
      s.length ≤ config.max_depth) →
    ∀ pr ∈ res, ∃ s, pr.path = rootPath ++ s ∧ 1 ≤ s.length ∧
      s.length ≤ config.max_depth := by
  intro fuel
  induction fuel with
  | zero =>
    intro projects stack res hrun _ hproj
    cases stack with
    | nil =>
      rw [scanLoopFuel] at hrun
      cases hrun
      exact hproj
    | cons e rest =>
      rw [scanLoopFuel] at hrun
      cases hrun
      exact hproj
  | succ fuel ih =>
    intro projects stack res hrun hstack hproj
    cases stack with
    | nil =>
      rw [scanLoopFuel] at hrun
      cases hrun
      exact hproj
    | cons e rest =>
      rw [scanLoopFuel] at hrun
      have hrest : ∀ e' ∈ rest, ∃ s, e'.path = rootPath ++ s ∧ s.length = e'.depth :=
        fun e' he' => hstack e' (List.mem_cons_of_mem e he')
      split at hrun
      · exact ih _ _ _ hrun hrest hproj
      · split at hrun
        · exact ih _ _ _ hrun hrest hproj
        · next hdep =>
          split at hrun
          · cases hrun
          · next n children ro eo mt hnode =>
            split at hrun
            · exact ih _ _ _ hrun hrest hproj
            · cases hrun
            · obtain ⟨s, hs, hslen⟩ := hstack e (List.mem_cons_self e rest)
              refine ih _ _ _ hrun ?_ ?_
              · intro e' he'
                rcases List.mem_append.1 he' with hp | hq
                · by_cases hlt : e.depth + 1 < config.max_depth
                  · rw [if_pos hlt, List.mem_reverse] at hp
                    obtain ⟨c, hc, rfl⟩ := List.mem_map.1 hp
                    exact ⟨s ++ [c.name], by simp [hs], by simp [hslen]⟩
                  · rw [if_neg hlt] at hp
                    cases hp
                · exact hrest e' hq
              · intro pr hpr
                rcases List.mem_append.1 hpr with hp | hf
                · exact hproj pr hp
                · obtain ⟨c, hc, hcheck⟩ := List.mem_filterMap.1 hf
                  have hpath := check_if_project_path c (e.path ++ [c.name]) pr hcheck
                  refine ⟨s ++ [c.name], by simp [hpath, hs], by simp, ?_⟩
                  have hmax : e.depth < config.max_depth := lt_of_not_le hdep
                  simp only [List.length_append, List.length_cons, List.length_nil, hslen]
                  omega

/-- C6: with `max_depth = d`, every project returned by `scan_directory`
lies at most `d` directory levels below the scan root. -/
theorem c6_scan_depth_bound (start : FsNode) (rootPath : List String)
    (config : ScanConfig) (res : List DiscoveredProject)
    (h : scan_directory start rootPath config 0 = Except.ok res) :
    ∀ pr ∈ res, ∃ s, pr.path = rootPath ++ s ∧ s.length ≤ config.max_depth := by
  intro pr hpr
  unfold scan_directory at h
  obtain ⟨s, h1, _, h3⟩ :=
    scanLoop_path_inv config rootPath _ _ _ _ h
      (by
        intro e he
        rcases List.mem_singleton.1 he with rfl
        exact ⟨[], by simp, rfl⟩)
      (by intro pr hpr; cases hpr) pr hpr
  exact ⟨s, h1, h3⟩

/-- C6 witness: a concrete two-level scan and the bound at its single
result. -/
theorem c6_witness :
    scan_directory fsW ["home"] { max_depth := 2, include_hidden := false } 0 =
      Except.ok [projW] ∧
    (∃ s, projW.path = ["home"] ++ s ∧ s.length ≤ 2) :=
  ⟨rfl, c6_scan_depth_bound fsW ["home"] { max_depth := 2, include_hidden := false }
    [projW] rfl projW (by decide)⟩

/-- C10: the scan root itself is never emitted: every returned project is
a strict descendant of the root, at least one level below, because the
project predicate is applied only to child directories of popped
directories. -/
theorem c10_root_never_project (start : FsNode) (rootPath : List String)
    (config : ScanConfig) (res : List DiscoveredProject)
    (h : scan_directory start rootPath config 0 = Except.ok res) :
    ∀ pr ∈ res, pr.path ≠ rootPath ∧ ∃ s, pr.path = rootPath ++ s ∧ 1 ≤ s.length := by
  intro pr hpr
  unfold scan_directory at h
  obtain ⟨s, h1, h2, _⟩ :=
    scanLoop_path_inv config rootPath _ _ _ _ h
      (by
        intro e he
        rcases List.mem_singleton.1 he with rfl
        exact ⟨[], by simp, rfl⟩)
      (by intro pr hpr; cases hpr) pr hpr
  refine ⟨?_, s, h1, h2⟩
  intro hcontra
  have hlen := congrArg List.length hcontra
  rw [h1, List.length_append] at hlen
  omega

/-- C10 witness: the root of the concrete scan holds no marker files'
project itself; its single result sits strictly below the root. -/
theorem c10_witness :
    scan_directory fsW ["home"] { max_depth := 2, include_hidden := false } 0 =
      Except.ok [projW] ∧
    projW.path ≠ ["home"] ∧ (∃ s, projW.path = ["home"] ++ s ∧ 1 ≤ s.length) :=
  ⟨rfl, c10_root_never_project fsW ["home"]
    { max_depth := 2, include_hidden := false } [projW] rfl projW (by decide)⟩

/-- Members of a list passing `readsOkList` pass `readsOk`. -/
theorem readsOkList_mem (cs : List FsNode) (c : FsNode)
    (h : FsNode.readsOkList cs = true) (hc : c ∈ cs) : c.readsOk = true := by
  induction cs with
  | nil => cases hc
  | cons d ds ih =>
    rw [FsNode.readsOkList, Bool.and_eq_true] at h
    rcases List.mem_cons.1 hc with rfl | hmem
    · exact h.1
    · exact ih h.2 hmem

/-- A stack of readable directories runs the loop to a successful
result: a `joinError` read degrades to "no children" and an entry-level
failure skips only that entry, so only an `ioError` read can fail the
scan. -/
theorem scanLoop_readsOk_isOk (config : ScanConfig) :
    ∀ (fuel : Nat) (projects : List DiscoveredProject) (stack : List StackEntry),
    (∀ e ∈ stack, e.node.readsOk = true ∧ e.node.isDir = true) →
    ∃ res, scanLoopFuel config fuel projects stack = Except.ok res := by
  intro fuel
  induction fuel with
  | zero =>
    intro projects stack _
    cases stack with
    | nil => exact ⟨projects, rfl⟩
    | cons e rest => exact ⟨projects, rfl⟩
  | succ fuel ih =>
    intro projects stack hstack
    cases stack with
    | nil => exact ⟨projects, rfl⟩
    | cons e rest =>
      have hrest : ∀ e' ∈ rest, e'.node.readsOk = true ∧ e'.node.isDir = true :=
        fun e' he' => hstack e' (List.mem_cons_of_mem e he')
      have he := hstack e (List.mem_cons_self e rest)
      rw [scanLoopFuel]
      split
      · exact ih projects rest hrest
      · split
        · exact ih projects rest hrest
        · split
          · rename_i hnode
            rw [hnode] at he
            simp [FsNode.isDir] at he
          · rename_i hnode
            rw [hnode] at he
            split
            · exact ih projects rest hrest
            · simp [FsNode.readsOk] at he
            · apply ih
              intro e' he'
              rcases List.mem_append.1 he' with hp | hq
              · by_cases hlt : e.depth + 1 < config.max_depth
                · rw [if_pos hlt, List.mem_reverse] at hp
                  obtain ⟨c, hc, rfl⟩ := List.mem_map.1 hp
                  have hcvis := (List.mem_filter.1 hc).1
                  have hcdir := (List.mem_filter.1 hc).2
                  have hcchildren := (List.mem_filter.1 hcvis).1
                  have h1 := he.1
                  simp [FsNode.readsOk] at h1
                  exact ⟨readsOkList_mem _ c h1 hcchildren, hcdir⟩
                · rw [if_neg hlt] at hp
                  cases hp
              · exact hrest e' hq

/-- C2 (amended): a task-join failure reading a directory is degraded to
"no children" and per-entry failures skip only that entry, so a scan of a
tree with no I/O read error always succeeds; an unresolvable root is a
hard error.  (An `ioError` reading a directory, by contrast, aborts the
scan — see the counterexample.) -/
theorem c2_error_degradation (start : FsNode) (rootPath : List String)
    (config : ScanConfig) (hdir : start.isDir = true) (hok : start.readsOk = true) :
    (∃ res, scan_projects_with_config (some (start, rootPath)) config =
      Except.ok res) ∧
    scan_projects_with_config none config =
      Except.error (AppError.Filesystem "Failed to get home directory") := by
  refine ⟨?_, rfl⟩
  unfold scan_projects_with_config scan_directory
  apply scanLoop_readsOk_isOk
  intro e he
  rcases List.mem_singleton.1 he with rfl
  exact ⟨hok, hdir⟩

/-- C2 counterexample: a single unreadable subdirectory (an I/O error
from `read_dir`) aborts the whole scan with an error rather than being
treated as an empty directory, against the claim. -/
theorem c2_counterexample :
    scan_projects_with_config (some (fsBad, ["home"]))
      { max_depth := 3, include_hidden := false } =
      Except.error (AppError.Filesystem "Task error: Permission error: denied") ∧
    fsBad.readsOk = false := by
  exact ⟨rfl, rfl⟩

/-- C2 witness: a tree whose subdirectory read fails at the task-join
level still scans successfully, and a missing home directory is the hard
error. -/
theorem c2_witness :
    (∃ res, scan_projects_with_config (some (fsJoin, ["home"]))
      { max_depth := 3, include_hidden := false } = Except.ok res) ∧
    scan_projects_with_config none { max_depth := 3, include_hidden := false } =
      Except.error (AppError.Filesystem "Failed to get home directory") :=
  c2_error_degradation fsJoin ["home"] { max_depth := 3, include_hidden := false }
    (by decide) (by decide)

/-- C7: a directory containing only `.mcp.json` with two MCP servers is
recognized as a project with one config file, `project` as its only
source tier, and a server count of 2. -/
theorem c7_check_if_project_scenario :
    ((check_if_project pNode ["home", "u", "P"]).map (fun pr =>
      (pr.config_file_count, pr.config_sources.project, pr.config_sources.user,
       pr.config_sources.local_, pr.mcp_servers))) =
      some (1, true, false, false, some ["2 servers"]) ∧
    count_mcp_servers (some mcpTwo) = Except.ok 2 :=
  ⟨rfl, rfl⟩

/-- Every node has positive size. -/
theorem FsNode.size_pos (n : FsNode) : 1 ≤ n.size := by
  cases n <;> simp [FsNode.size]

/-- `sizeList` is the sum of the member sizes. -/
theorem sizeList_eq_sum (cs : List FsNode) :
    FsNode.sizeList cs = (cs.map FsNode.size).sum := by
  induction cs with
  | nil => rfl
  | cons c cs ih => rw [FsNode.sizeList, List.map_cons, List.sum_cons, ih]

/-- Filtering cannot increase the summed sizes. -/
theorem sum_map_size_filter_le (cs : List FsNode) (p : FsNode → Bool) :
    ((cs.filter p).map FsNode.size).sum ≤ (cs.map FsNode.size).sum := by
  induction cs with
  | nil => simp
  | cons c cs ih =>
    rw [List.filter_cons]
    by_cases h : p c
    · simpa [h] using Nat.add_le_add_left ih (FsNode.size c)
    · simp only [h]
      rw [List.map_cons, List.sum_cons]
      exact le_trans ih (Nat.le_add_left _ _)

/-- The summed node sizes of the entries pushed for a directory's
children are bounded by the children's total size. -/
theorem pushes_sum_le (children : List FsNode) (p q : FsNode → Bool)
    (f : FsNode → StackEntry) (hf : ∀ c, (f c).node = c) :
    (((((children.filter p).filter q).map f).reverse).map
      (fun e => e.node.size)).sum ≤ FsNode.sizeList children := by
  rw [List.map_reverse, List.sum_reverse, List.map_map, sizeList_eq_sum]
  have h1 : ((children.filter p).filter q).map ((fun e => e.node.size) ∘ f) =
      ((children.filter p).filter q).map FsNode.size :=
    List.map_congr_left (fun c _ => by simp [Function.comp, hf c])
  rw [h1]
  exact le_trans (sum_map_size_filter_le _ _) (sum_map_size_filter_le _ _)

/-- Each loop iteration pops a node of positive size and pushes only
proper subtrees of it, so any fuel beyond the summed stack sizes computes
the same result: the fuel seeded by `scan_directory` computes the Rust
loop's limit behavior. -/
theorem scanLoopFuel_fuel_irrel (config : ScanConfig) :
    ∀ (f g : Nat) (projects : List DiscoveredProject) (stack : List StackEntry),
    (stack.map (fun e => e.node.size)).sum < f →
    (stack.map (fun e => e.node.size)).sum < g →
    scanLoopFuel config f projects stack = scanLoopFuel config g projects stack := by
  intro f
  induction f using Nat.strong_induction_on with
  | _ f ihf =>
    intro g projects stack hf hg
    cases stack with
    | nil =>
      cases f with
      | zero => cases g with | zero => rfl | succ g => rfl
      | succ f => cases g with | zero => rfl | succ g => rfl
    | cons e rest =>
      cases f with
      | zero => exact absurd hf (by omega)
      | succ f =>
        cases g with
        | zero => exact absurd hg (by omega)
        | succ g =>
          rw [List.map_cons, List.sum_cons] at hf hg
          have hsize := FsNode.size_pos e.node
          have hrf : (rest.map (fun e => e.node.size)).sum < f := by omega
          have hrg : (rest.map (fun e => e.node.size)).sum < g := by omega
          rw [scanLoopFuel, scanLoopFuel]
          by_cases hsys : e.path = ["proc"] ∨ e.path = ["sys"] ∨ e.path = ["dev"]
          · rw [if_pos hsys, if_pos hsys]
            exact ihf f (by omega) g projects rest hrf hrg
          · rw [if_neg hsys, if_neg hsys]
            by_cases hdep : config.max_depth ≤ e.depth
            · rw [if_pos hdep, if_pos hdep]
              exact ihf f (by omega) g projects rest hrf hrg
            · rw [if_neg hdep, if_neg hdep]
              cases hnode : e.node with
              | file n c eo => rfl
              | dir n children ro eo mt =>
                cases ro with
                | joinError => exact ihf f (by omega) g projects rest hrf hrg
                | ioError err => rfl
                | ok =>
                  have hchildren : FsNode.sizeList children < e.node.size := by
                    rw [hnode, FsNode.size]
                    omega
                  refine ihf f (by omega) g _ _ ?_ ?_ <;>
                  · rw [List.map_append, List.sum_append]
                    by_cases hlt : e.depth + 1 < config.max_depth
                    · rw [if_pos hlt]
                      have hb := pushes_sum_le children
                        (fun c => c.entryOk && (config.include_hidden || !(hiddenName c.name)))
                        (fun c => c.isDir)
                        (fun c => StackEntry.mk c (e.path ++ [c.name]) (e.depth + 1))
                        (fun c => rfl)
                      omega
                    · rw [if_neg hlt]
                      simp only [List.map_nil, List.sum_nil]
                      omega
